import Mathlib

/-!
# Verification of the promotenews broadcast engine

Shallow embedding of the core logic of the repository (Sender pipeline,
Scheduler group selection, Auto-Join engine, per-account credential DSN
derivation, group upsert) together with proofs and refutations of the
frozen specification claims.

Strings are modelled as `List Char`; SQL tables as Lean lists of row
structures; wall-clock instants as natural numbers (seconds, resp. minutes,
as documented per definition); protocol calls and I/O outcomes as explicit
oracle parameters.
-/

namespace Promote

/-- Convert a string literal to the `List Char` representation used throughout. -/
def lstr (s : String) : List Char := s.toList

/-! ## Session-manager DSN derivation (wa.Manager.perAccountDSN) -/

/-- `strings.Index(base, "?")` split: returns the part before the first `?`
and the part after it (empty when there is no `?`), exactly the two strings
`path` and `q` computed by the Go code. -/
def splitQuery : List Char → List Char × List Char
  | [] => ([], [])
  | c :: cs =>
    if c = '?' then ([], cs)
    else
      let r := splitQuery cs
      (c :: r.1, r.2)

/-- Embedding of `(*Manager).perAccountDSN` from the `wa` package: derives the
per-account credential-container DSN from the base storage DSN, inserting the
account id before the `.db` extension of a file-form DSN, or appending it as a
query parameter otherwise. -/
def perAccountDSN (base accountID : List Char) : List Char :=
  if base = [] then
    lstr "file:promote_wa_" ++ accountID ++ lstr ".db?_foreign_keys=on"
  else
    let path := (splitQuery base).1
    let q := (splitQuery base).2
    if (lstr "file:").isPrefixOf path then
      let fn := path.drop 5
      let lfn := fn.map Char.toLower
      let fn2 :=
        if (lstr ".db").isSuffixOf lfn then
          (if (lstr ".db").isSuffixOf fn then fn.take (fn.length - 3) else fn) ++
            lstr "_wa_" ++ accountID ++ lstr ".db"
        else
          fn ++ lstr "_wa_" ++ accountID ++ lstr ".db"
      let dsn := lstr "file:" ++ fn2
      if q ≠ [] then dsn ++ '?' :: q else dsn
    else if q ≠ [] then
      base ++ lstr "&acc=" ++ accountID
    else
      base ++ lstr "?acc=" ++ accountID

/-! ## Sender: retry classification (sender.go `httpStatusError`, `isRetryable`, `withRetry`) -/

/-- `strings.Contains s pat`: whether `pat` occurs as a contiguous substring. -/
def containsSub (pat : List Char) : List Char → Bool
  | [] => pat.isPrefixOf []
  | c :: t => pat.isPrefixOf (c :: t) || containsSub pat t

/-- Go `error` values reaching the Sender's retry logic: either the typed
`httpStatusError` produced by `fetch`, or any other error carrying a message. -/
inductive GoErr where
  | httpStatus (code : Nat) (url : List Char)
  | plain (msg : List Char)
deriving DecidableEq

/-- `err.Error()`: `httpStatusError` formats as `fetch <url>: status <code>`. -/
def GoErr.message : GoErr → List Char
  | .httpStatus code url => lstr "fetch " ++ url ++ lstr ": status " ++ Nat.toDigits 10 code
  | .plain m => m

/-- The five substrings checked by `isRetryable` on the lower-cased message. -/
def retrySubstrings : List (List Char) :=
  [lstr "timeout", lstr "temporary", lstr "eof", lstr "reset", lstr "deadline"]

/-- Embedding of sender.go `isRetryable`: a typed `httpStatusError` is decided
on its code alone (429 or 500..599); every other error is decided by the
substring check on its lower-cased message. -/
def isRetryable : GoErr → Bool
  | .httpStatus code _ => code == 429 || (500 ≤ code && code ≤ 599)
  | .plain m => retrySubstrings.any fun p => containsSub p (m.map Char.toLower)

/-- The claim's reading of retryability: HTTP 429/5xx OR the lower-cased
message contains one of the substrings — with the substring check applied to
every error, including typed HTTP status errors. -/
def retryableClaim (e : GoErr) : Bool :=
  (match e with
   | .httpStatus code _ => code == 429 || (500 ≤ code && code ≤ 599)
   | .plain _ => false) ||
  retrySubstrings.any fun p => containsSub p (e.message.map Char.toLower)

/-- sender.go `maxAttempts`. -/
def maxAttempts : Nat := 3

/-- One run of `withRetry`, parameterized by the oracle `res` giving the
outcome of the n-th call of the wrapped function (`none` = success).
Returns (number of calls made, final result). `fuel` is the number of retries
still allowed, i.e. `maxAttempts - attempt - 1`, so `fuel = 0` is Go's
`attempt >= maxAttempts` stop condition after the increment. Backoff sleeps
are modelled as completing (context cancellation during backoff only cuts
retries short, it never adds calls). -/
def withRetryAux (res : Nat → Option GoErr) : Nat → Nat → Nat × Option GoErr
  | fuel, attempt =>
    match res attempt with
    | none => (attempt + 1, none)
    | some e =>
      match fuel with
      | 0 => (attempt + 1, some e)
      | fuel' + 1 =>
        if isRetryable e = false then (attempt + 1, some e)
        else withRetryAux res fuel' (attempt + 1)

/-- `withRetry` starts at attempt 0 with `maxAttempts - 1` retries left. -/
def withRetry (res : Nat → Option GoErr) : Nat × Option GoErr :=
  withRetryAux res (maxAttempts - 1) 0

/-! ## Sender: multi-part pipeline (sender.go `SendToGroupWithSession`) -/

/-- `strings.TrimSpace` (ASCII whitespace suffices for this code base). -/
def isSpaceChar (c : Char) : Bool := c = ' ' || c = '\t' || c = '\n' || c = '\r'

/-- Strip leading and trailing whitespace. -/
def trimSpace (s : List Char) : List Char :=
  ((s.dropWhile isSpaceChar).reverse.dropWhile isSpaceChar).reverse

/-- sender.go `short`: truncate a preview to 128 characters. -/
def short (s : List Char) : List Char := if s.length ≤ 128 then s else s.take 128

/-- The six message-part kinds, in the fixed delivery order of the pipeline. -/
inductive PartKind where
  | text | image | video | audio | sticker | doc
deriving DecidableEq, Repr

/-- Position of a kind in the fixed delivery order. -/
def PartKind.rank : PartKind → Nat
  | .text => 0
  | .image => 1
  | .video => 2
  | .audio => 3
  | .sticker => 4
  | .doc => 5

/-- One part handed to the protocol: its kind, the payload (personalized text
for the text part, the URL otherwise), the personalized caption, and the
preview strings / attempt numbers used for its audit rows. -/
structure Part where
  kind : PartKind
  payload : List Char
  caption : List Char
  okPreview : List Char
  failPreview : List Char
  okAttempt : Nat
  failAttempt : Nat
deriving DecidableEq, Repr

/-- sender.go `MessageContent`. -/
structure MessageContent where
  textOnly : List Char
  imageURLs : List (List Char)
  imageCaption : List Char
  videoURLs : List (List Char)
  videoCaption : List Char
  audioURLs : List (List Char)
  stickerURLs : List (List Char)
  docURLs : List (List Char)
  docCaption : List Char
deriving DecidableEq

/-- Success-log preview of a media part: `<tag><url>` plus the caption suffix
when the personalized caption is non-empty. -/
def mediaPreview (tag url caption : List Char) : List Char :=
  tag ++ url ++ (if caption ≠ [] then lstr " (caption:" ++ short caption ++ lstr ")" else [])

/-- The parts of one invocation in source order: the text-only part when its
content is non-blank, then images, videos, audios, stickers and documents,
each URL list in order. `pers` is the personalization applied to the text and
to each caption. -/
def partsOf (pers : List Char → List Char) (c : MessageContent) : List Part :=
  (if trimSpace c.textOnly ≠ [] then
    [⟨.text, pers c.textOnly, [], lstr "text-only:" ++ short c.textOnly,
      short (pers c.textOnly), 1, maxAttempts⟩]
   else []) ++
  (c.imageURLs.enum.map fun iu =>
    ⟨.image, iu.2, pers c.imageCaption,
      mediaPreview (lstr "image:") iu.2 (pers c.imageCaption),
      lstr "image:" ++ iu.2, iu.1 + 1, iu.1 + 1⟩) ++
  (c.videoURLs.enum.map fun iu =>
    ⟨.video, iu.2, pers c.videoCaption,
      mediaPreview (lstr "video:") iu.2 (pers c.videoCaption),
      lstr "video:" ++ iu.2, iu.1 + 1, iu.1 + 1⟩) ++
  (c.audioURLs.enum.map fun iu =>
    ⟨.audio, iu.2, [], lstr "audio:" ++ iu.2, lstr "audio:" ++ iu.2,
      iu.1 + 1, iu.1 + 1⟩) ++
  (c.stickerURLs.enum.map fun iu =>
    ⟨.sticker, iu.2, [], lstr "sticker:" ++ iu.2, lstr "sticker:" ++ iu.2,
      iu.1 + 1, iu.1 + 1⟩) ++
  (c.docURLs.enum.map fun iu =>
    ⟨.doc, iu.2, pers c.docCaption,
      mediaPreview (lstr "doc:") iu.2 (pers c.docCaption),
      lstr "doc:" ++ iu.2, iu.1 + 1, iu.1 + 1⟩)

/-- One row of the `groups` table. -/
structure GroupRow where
  id : List Char
  accountId : List Char
  name : List Char
  enabled : Bool
  lastSentAt : Option Nat
  riskScore : Nat
deriving DecidableEq, Repr

/-- One row of the `logs` table (the columns the Sender writes). -/
structure LogRow where
  accountId : List Char
  groupId : List Char
  campaignId : Option (List Char)
  sessionId : Option (List Char)
  status : List Char
  error : List Char
  preview : List Char
  attempt : Nat
deriving DecidableEq, Repr

/-- sender.go `nullIfEmpty`: blank strings are stored as SQL NULL. -/
def nullIfEmpty (s : List Char) : Option (List Char) :=
  if trimSpace s = [] then none else some s

/-- A row built by sender.go `logResult` (the Sender always passes an empty
campaign id). -/
def logRow (acct gid sess status preview errMsg : List Char) (attempt : Nat) : LogRow :=
  ⟨acct, gid, nullIfEmpty [], nullIfEmpty sess, status, errMsg, preview, attempt⟩

/-- The `sent` row logged after a part succeeds. -/
def okRow (acct gid sess : List Char) (p : Part) : LogRow :=
  logRow acct gid sess (lstr "sent") p.okPreview [] p.okAttempt

/-- The `failed` row logged after a part's final failure. -/
def failRow (acct gid sess : List Char) (p : Part) (e : GoErr) : LogRow :=
  logRow acct gid sess (lstr "failed") p.failPreview e.message p.failAttempt

/-- The slice of the store the Sender touches. -/
structure SendDB where
  groups : List GroupRow
  logs : List LogRow
deriving DecidableEq

/-- sender.go `riskThreshold` (default 3, shared with the Scheduler). -/
def riskThreshold : Nat := 3

/-- sender.go `bumpRiskAndMaybePause`: first `UPDATE groups SET
risk_score = risk_score + 1 WHERE id=?`, then `UPDATE groups SET enabled=0
WHERE id=? AND risk_score >= ?`. -/
def bumpRiskAndMaybePause (db : SendDB) (groupID : List Char) : SendDB :=
  let g1 := db.groups.map fun g =>
    if g.id = groupID then { g with riskScore := g.riskScore + 1 } else g
  let g2 := g1.map fun g =>
    if g.id = groupID ∧ riskThreshold ≤ g.riskScore then { g with enabled := false } else g
  { db with groups := g2 }

/-- Result of one `SendToGroupWithSession` invocation: the store afterwards,
the parts whose delivery was attempted (in order), and the returned error
(`none` = the call returned nil). -/
structure SendOutcome where
  db : SendDB
  trace : List Part
  result : Option GoErr
deriving DecidableEq

/-- The part loop of `SendToGroupWithSession`. `deliver k` is the final
outcome of the retry-wrapped delivery of the k-th attempted part; `sleepErr k`
the outcome of the pacing sleep after a successful k-th part (context
cancellation). On a part's final failure: one `failed` row, risk bump, return
the error; on success: one `sent` row, pacing sleep, next part. -/
def runParts (acct gid sess : List Char) (deliver sleepErr : Nat → Option GoErr) :
    List Part → Nat → SendDB → List Part → SendOutcome
  | [], _, db, tr => ⟨db, tr.reverse, none⟩
  | p :: rest, k, db, tr =>
    match deliver k with
    | some e =>
      ⟨bumpRiskAndMaybePause ⟨db.groups, db.logs ++ [failRow acct gid sess p e]⟩ gid,
        (p :: tr).reverse, some e⟩
    | none =>
      let db1 : SendDB := ⟨db.groups, db.logs ++ [okRow acct gid sess p]⟩
      match sleepErr k with
      | some e => ⟨db1, (p :: tr).reverse, some e⟩
      | none => runParts acct gid sess deliver sleepErr rest (k + 1) db1 (p :: tr)

/-- Embedding of `SendToGroupWithSession`. `pre` is the outcome of the steps
before the first part (client lookup, paired check, connect, JID parse):
when it is `some e` the call returns `e` having attempted nothing. -/
def sendToGroupWithSession (pre : Option GoErr) (pers : List Char → List Char)
    (deliver sleepErr : Nat → Option GoErr) (acct gid sess : List Char)
    (c : MessageContent) (db : SendDB) : SendOutcome :=
  match pre with
  | some e => ⟨db, [], some e⟩
  | none => runParts acct gid sess deliver sleepErr (partsOf pers c) 0 db []

/-! ## Scheduler: group eligibility and per-tick loop (scheduler.go) -/

/-- The WHERE clause of `pickOneEligibleGroup` / `countEligibleGroups`, for
one row: `account_id=? AND enabled=1 AND (last_sent_at IS NULL OR
last_sent_at < datetime('now','-<cooldown> hours')) AND risk_score < ?`.
Timestamps are seconds; `t < now - c·3600` is written additively so that the
comparison agrees with integer arithmetic for all `now`. -/
def groupEligible (now cooldownHours riskThr : Nat) (accountID : List Char)
    (g : GroupRow) : Bool :=
  decide (g.accountId = accountID) && g.enabled &&
    (match g.lastSentAt with
     | none => true
     | some t => decide (t + cooldownHours * 3600 < now)) &&
    decide (g.riskScore < riskThr)

/-- scheduler.go `pickOneEligibleGroup`: `ORDER BY RANDOM() LIMIT 1` over the
eligible rows. The random shuffle is modelled by quantifying over the order
of `tbl`; the query then returns the first eligible row, or nothing. -/
def pickOneEligibleGroup (tbl : List GroupRow) (now cooldownHours riskThr : Nat)
    (accountID : List Char) : Option (List Char) :=
  ((tbl.filter (groupEligible now cooldownHours riskThr accountID)).head?).map GroupRow.id

/-- The eligibility predicate as the specification states it. -/
def eligibleSpec (now cooldownHours riskThr : Nat) (accountID : List Char)
    (g : GroupRow) : Prop :=
  g.accountId = accountID ∧ g.enabled = true ∧ g.riskScore < riskThr ∧
    (g.lastSentAt = none ∨ ∃ t, g.lastSentAt = some t ∧ t + cooldownHours * 3600 < now)

instance (now cooldownHours riskThr : Nat) (accountID : List Char) (g : GroupRow) :
    Decidable (eligibleSpec now cooldownHours riskThr accountID g) := by
  unfold eligibleSpec; infer_instance

/-- scheduler.go `accountLite`. -/
structure AccountLite where
  id : List Char
  dailyLimit : Int
deriving DecidableEq

/-- Per-account environment of one tick of `processOneSend`: whether
`ConnectIfPaired` succeeds, the result of the sent-today count query, the
result of `pickOneEligibleGroup` (`none` = query error, `some none` = no
eligible group), and whether `SendToGroupUsingRandomTemplate` returns nil. -/
structure AccountEnv where
  connectOk : Bool
  sentToday : Option Nat
  pickResult : Option (Option (List Char))
  sendOk : Bool
deriving DecidableEq

/-- One Sender invocation issued by a tick. -/
structure Invocation where
  accountId : List Char
  groupId : List Char
  ok : Bool
deriving DecidableEq, Repr

/-- scheduler.go `processOneSend`: walk the (shuffled) enabled accounts;
skip an account on connect error, count error, reached daily limit, pick
error or no eligible group; otherwise invoke the Sender. On success, end the
tick; on failure, continue with the next account. Returns the Sender
invocations of the tick, in order. -/
def processOneSend (env : List Char → AccountEnv) : List AccountLite → List Invocation
  | [] => []
  | a :: rest =>
    let e := env a.id
    if e.connectOk = false then processOneSend env rest
    else
      match e.sentToday with
      | none => processOneSend env rest
      | some sent =>
        let dl : Int := if a.dailyLimit ≤ 0 then 100 else a.dailyLimit
        if dl ≤ (sent : Int) then processOneSend env rest
        else
          match e.pickResult with
          | none => processOneSend env rest
          | some none => processOneSend env rest
          | some (some gid) =>
            if e.sendOk then [⟨a.id, gid, true⟩]
            else ⟨a.id, gid, false⟩ :: processOneSend env rest

/-! ## Sender: placeholder substitution (sender.go `personalize`) -/

/-- The `{group_name}` pattern. -/
def patGroupName : List Char := lstr "{group_name}"

/-- The `{time_now}` pattern. -/
def patTimeNow : List Char := lstr "{time_now}"

/-- `strings.NewReplacer("{group_name}", gname, "{time_now}", tnow).Replace`:
scan left to right, replace the earliest non-overlapping pattern occurrence,
never rescanning replacements. Fuel-indexed for structural recursion; the
fuel is the input length, which suffices since every step consumes at least
one character. -/
def replaceTwoAux (gname tnow : List Char) : Nat → List Char → List Char
  | 0, l => l
  | _ + 1, [] => []
  | fuel + 1, c :: cs =>
    if patGroupName.isPrefixOf (c :: cs) then
      gname ++ replaceTwoAux gname tnow fuel ((c :: cs).drop patGroupName.length)
    else if patTimeNow.isPrefixOf (c :: cs) then
      tnow ++ replaceTwoAux gname tnow fuel ((c :: cs).drop patTimeNow.length)
    else c :: replaceTwoAux gname tnow fuel cs

/-- The replacer on a full string. -/
def replaceTwo (gname tnow : List Char) (s : List Char) : List Char :=
  replaceTwoAux gname tnow s.length s

/-- Two-digit decimal field of Go's "15:04" time layout. -/
def pad2 (n : Nat) : List Char :=
  if n < 10 then '0' :: Nat.toDigits 10 n else Nat.toDigits 10 n

/-- Format a minute-of-day as `HH:MM`. -/
def formatHHMM (minOfDay : Nat) : List Char :=
  pad2 (minOfDay / 60) ++ ':' :: pad2 (minOfDay % 60)

/-- Asia/Jakarta is fixed UTC+07:00 (no DST). -/
def jakartaOffsetMin : Int := 7 * 60

/-- Embedding of sender.go `personalize`. The wall clock is `utcMin` minutes
since an epoch midnight UTC; `time.LoadLocation("Asia/Jakarta")` succeeding is
`tzOk`. On success `now` is converted to Jakarta time; on failure `now`
silently stays in the server's system zone, whose offset is `sysOffsetMin`
minutes. `{time_now}` is then the local time formatted "15:04". -/
def personalize (tzOk : Bool) (sysOffsetMin : Int) (utcMin : Nat)
    (text groupName : List Char) : List Char :=
  if text = [] then text
  else
    let off : Int := if tzOk then jakartaOffsetMin else sysOffsetMin
    let localMinOfDay : Nat := (((utcMin : Int) + off).emod 1440).toNat
    replaceTwo groupName (formatHHMM localMinOfDay) text

/-- The claim's reading of `personalize`: `{time_now}` is always the
Asia/Jakarta wall clock, with a fixed +07:00 zone when the tz database is
unavailable. -/
def personalizeClaimed (utcMin : Nat) (text groupName : List Char) : List Char :=
  if text = [] then text
  else
    let localMinOfDay : Nat := (((utcMin : Int) + jakartaOffsetMin).emod 1440).toNat
    replaceTwo groupName (formatHHMM localMinOfDay) text

/-- Template segments: literal text and the two placeholders. A text is
described by its segment decomposition to state what substitution does. -/
inductive Seg where
  | lit (s : List Char)
  | gname
  | tnow
deriving DecidableEq

/-- The source text of a segment. -/
def renderSeg : Seg → List Char
  | .lit s => s
  | .gname => patGroupName
  | .tnow => patTimeNow

/-- The source text of a segment list. -/
def renderTemplate (segs : List Seg) : List Char := (segs.map renderSeg).flatten

/-- Segment after substitution. -/
def substSeg (g t : List Char) : Seg → List Char
  | .lit s => s
  | .gname => g
  | .tnow => t

/-- The substituted text of a segment list. -/
def substTemplate (g t : List Char) (segs : List Seg) : List Char :=
  (segs.map (substSeg g t)).flatten

/-- Literal segments free of `{` — placeholder occurrences are then exactly
the `gname` / `tnow` segments. -/
def litFree : List Seg → Bool
  | [] => true
  | .lit s :: rest => !s.contains '{' && litFree rest
  | _ :: rest => litFree rest

/-! ## Auto-Join engine (autojoin.go, detector.go, filter logic) -/

/-- detector.go alphanumeric test. -/
def isAlnum (c : Char) : Bool :=
  ('A' ≤ c && c ≤ 'Z') || ('a' ≤ c && c ≤ 'z') || ('0' ≤ c && c ≤ '9')

/-- detector.go `NormalizeInviteCode`: trim space, keep alphanumerics. -/
def normalizeInviteCode (code : List Char) : List Char :=
  (trimSpace code).filter isAlnum

/-- detector.go `ValidateInviteCode`: length in [10,30], alphanumeric only. -/
def validateInviteCode (code : List Char) : Bool :=
  (10 ≤ code.length && code.length ≤ 30) && code.all isAlnum

/-- filter settings row (`auto_join_settings`), JSON lists parsed. -/
structure AJSettings where
  enabled : Bool
  dailyLimit : Nat
  previewBeforeJoin : Bool
  whitelistContacts : List (List Char)
  blacklistKeywords : List (List Char)
deriving DecidableEq

/-- `loadSettings` defaults when no row exists. -/
def defaultAJSettings : AJSettings := ⟨false, 20, true, [], []⟩

/-- filter `isWhitelisted`: case-insensitive membership of the sender JID. -/
def isWhitelisted (whitelist : List (List Char)) (senderJID : List Char) : Bool :=
  whitelist.any fun allowed =>
    decide (allowed.map Char.toLower = senderJID.map Char.toLower)

/-- filter `isBlacklisted`: some keyword is a case-insensitive substring of
the group name. -/
def isBlacklisted (blacklist : List (List Char)) (groupName : List Char) : Bool :=
  blacklist.any fun kw =>
    containsSub (kw.map Char.toLower) (groupName.map Char.toLower)

/-- filter `ShouldJoin`: returns (allowed, reason-if-not). -/
def shouldJoin (f : AJSettings) (senderJID groupName : List Char)
    (joinsToday : Nat) : Bool × List Char :=
  if f.enabled = false then (false, lstr "auto_join_disabled")
  else if f.dailyLimit ≤ joinsToday then (false, lstr "daily_limit_reached")
  else if 0 < f.whitelistContacts.length ∧ isWhitelisted f.whitelistContacts senderJID = false then
    (false, lstr "sender_not_whitelisted")
  else if groupName ≠ [] ∧ isBlacklisted f.blacklistKeywords groupName = true then
    (false, lstr "keyword_blacklisted")
  else (true, [])

/-- One row of `auto_join_logs`. -/
structure AJLogRow where
  accountId : List Char
  groupId : Option (List Char)
  groupName : Option (List Char)
  inviteCode : List Char
  sharedBy : Option (List Char)
  sharedIn : Option (List Char)
  status : List Char
  reason : Option (List Char)
  joinedAt : Nat
deriving DecidableEq

/-- autojoin.go `nullStr`. -/
def nullStr (s : List Char) : Option (List Char) :=
  if s = [] then none else some s

/-- The Auto-Joiner's mutable state: the audit table and the in-memory
per-account last-join-time map (most recent binding first). -/
structure AJState where
  logs : List AJLogRow
  lastJoinTime : List (List Char × Nat)
deriving DecidableEq

/-- Map lookup in `lastJoinTime`. -/
def lookupLast (m : List (List Char × Nat)) (a : List Char) : Option Nat :=
  (m.find? fun p => decide (p.1 = a)).map Prod.snd

/-- autojoin.go `logAttempt`: append one audit row (`joined_at` is the insert
time). -/
def logAttempt (st : AJState) (now : Nat)
    (a gid gname code sharedBy sharedIn status reason : List Char) : AJState :=
  { st with logs := st.logs ++
      [⟨a, nullStr gid, nullStr gname, code, nullStr sharedBy, nullStr sharedIn,
        status, nullStr reason, now⟩] }

/-- autojoin.go `countJoinsToday`: joined rows of the account since the start
of the local day. -/
def countJoinsToday (logs : List AJLogRow) (accountId : List Char)
    (dayStart : Nat) : Nat :=
  (logs.filter fun r =>
    decide (r.accountId = accountId) && decide (r.status = lstr "joined") &&
      decide (dayStart ≤ r.joinedAt)).length

/-- autojoin.go `isAlreadyJoined`: a `joined` row for this (account, code)
exists. -/
def isAlreadyJoined (logs : List AJLogRow) (a code : List Char) : Bool :=
  logs.any fun r =>
    decide (r.accountId = a) && decide (r.inviteCode = code) &&
      decide (r.status = lstr "joined")

/-- autojoin.go `minInterval` (3 seconds). -/
def minIntervalSec : Nat := 3

/-- autojoin.go `checkRateLimit`: allowed when no previous join or the
minimum interval has elapsed. -/
def checkRateLimit (st : AJState) (now : Nat) (a : List Char) : Bool :=
  match lookupLast st.lastJoinTime a with
  | none => true
  | some last => decide (minIntervalSec ≤ now - last)

/-- Result of a fallible protocol call (Go's `(value, error)` pair). -/
inductive Res (α : Type) where
  | ok (a : α)
  | err (msg : List Char)
deriving DecidableEq

/-- `types.GroupInfo` (the field this code reads). -/
structure GroupInfoM where
  name : List Char
deriving DecidableEq

/-- The protocol calls `ProcessInviteCode` can make. -/
inductive ProtoCall where
  | previewCall (code : List Char)
  | joinCall (code : List Char)
  | getInfoCall (jid : List Char)
deriving DecidableEq, Repr

/-- Oracles for one `ProcessInviteCode` run: the settings row of the account,
the outcomes of the three protocol calls, the wall clock (seconds) and the
local start-of-day. -/
structure AJEnv where
  settingsRow : Option AJSettings
  previewResult : Res GroupInfoM
  joinResult : Res (List Char)
  postInfo : Res GroupInfoM
  now : Nat
  dayStart : Nat
deriving DecidableEq

/-- State plus the protocol calls made, in order. -/
structure AJOutcome where
  state : AJState
  calls : List ProtoCall
deriving DecidableEq

/-- `ProcessInviteCode` from the filter step on (after normalize, validate,
settings-enabled and preview): apply the filter, the non-blocking rate-limit
check, the duplicate check, then join; on success log `joined` (fetching the
group name when the preview did not supply one) and update the last-join
time. -/
def processAfterPreview (env : AJEnv) (st : AJState)
    (accountId code sharedBy sharedIn : List Char) (settings : AJSettings)
    (joinsToday : Nat) (groupName : List Char) (callsSoFar : List ProtoCall) :
    AJOutcome :=
  let sj := shouldJoin settings sharedBy groupName joinsToday
  if sj.1 = false then
    ⟨logAttempt st env.now accountId [] groupName code sharedBy sharedIn
        (lstr "skipped") sj.2, callsSoFar⟩
  else if checkRateLimit st env.now accountId = false then
    ⟨logAttempt st env.now accountId [] groupName code sharedBy sharedIn
        (lstr "skipped") (lstr "rate_limit"), callsSoFar⟩
  else if isAlreadyJoined st.logs accountId code = true then
    ⟨logAttempt st env.now accountId [] groupName code sharedBy sharedIn
        (lstr "skipped") (lstr "already_joined"), callsSoFar⟩
  else
    match env.joinResult with
    | .err e =>
      ⟨logAttempt st env.now accountId [] groupName code sharedBy sharedIn
          (lstr "failed") e, callsSoFar ++ [.joinCall code]⟩
    | .ok jid =>
      let finalName :=
        if groupName = [] then
          match env.postInfo with
          | .ok info => info.name
          | .err _ => groupName
        else groupName
      let calls := callsSoFar ++ [.joinCall code] ++
        (if groupName = [] then [.getInfoCall jid] else [])
      let st1 := logAttempt st env.now accountId jid finalName code sharedBy
        sharedIn (lstr "joined") []
      ⟨{ st1 with lastJoinTime := (accountId, env.now) :: st1.lastJoinTime }, calls⟩

/-- Embedding of autojoin.go `ProcessInviteCode`. -/
def processInviteCode (env : AJEnv) (st : AJState)
    (accountId inviteCode sharedBy sharedIn : List Char) : AJOutcome :=
  let code := normalizeInviteCode inviteCode
  if validateInviteCode code = false then
    ⟨logAttempt st env.now accountId [] [] code sharedBy sharedIn
        (lstr "skipped") (lstr "invalid_invite_code"), []⟩
  else
    let settings := env.settingsRow.getD defaultAJSettings
    if settings.enabled = false then
      ⟨logAttempt st env.now accountId [] [] code sharedBy sharedIn
          (lstr "skipped") (lstr "auto_join_disabled"), []⟩
    else
      let joinsToday := countJoinsToday st.logs accountId env.dayStart
      if settings.previewBeforeJoin then
        match env.previewResult with
        | .err e =>
          ⟨logAttempt st env.now accountId [] [] code sharedBy sharedIn
              (lstr "failed") (lstr "preview_failed: " ++ e), [.previewCall code]⟩
        | .ok info =>
          processAfterPreview env st accountId code sharedBy sharedIn settings
            joinsToday info.name [.previewCall code]
      else
        processAfterPreview env st accountId code sharedBy sharedIn settings
          joinsToday [] []

/-- Number of `joined` rows of one (account, invite_code) pair. -/
def joinedCount (logs : List AJLogRow) (a code : List Char) : Nat :=
  (logs.filter fun r =>
    decide (r.accountId = a) && decide (r.inviteCode = code) &&
      decide (r.status = lstr "joined")).length

/-! ## Store: `UpsertGroup` and `FetchAndSyncGroups` (storage, wa manager) -/

/-- storage `UpsertGroup`: `INSERT INTO groups (id, account_id, name,
enabled, created_at) VALUES (?,?,?,0,...) ON CONFLICT(id) DO UPDATE SET
account_id=excluded.account_id,
name=COALESCE(NULLIF(excluded.name,''), groups.name)`. -/
def upsertGroup (tbl : List GroupRow) (accountID groupID name : List Char) :
    List GroupRow :=
  if tbl.any fun g => decide (g.id = groupID) then
    tbl.map fun g =>
      if g.id = groupID then
        { g with accountId := accountID,
                 name := if name ≠ [] then name else g.name }
      else g
  else
    tbl ++ [⟨groupID, accountID, name, false, none, 0⟩]

/-- The upsert loop of wa `FetchAndSyncGroups`: upsert each fetched
(jid, name), skipping empty jids; nothing is ever deleted. -/
def syncGroups (tbl : List GroupRow) (accountID : List Char)
    (fetched : List (List Char × List Char)) : List GroupRow :=
  fetched.foldl
    (fun t gu => if gu.1 = [] then t else upsertGroup t accountID gu.1 gu.2) tbl

/-! ## Concrete inputs used by witnesses and counterexamples -/

/-- A content bundle with one text part and one image part. -/
def contentW : MessageContent :=
  ⟨lstr "halo {group_name}", [lstr "/uploads/a.jpg"], lstr "promo", [], [], [], [], [], []⟩

/-- A store with one group row `G1` owned by `A1`, never sent to. -/
def dbW : SendDB :=
  ⟨[⟨lstr "G1", lstr "A1", lstr "Toko", true, none, 0⟩], []⟩

/-- Delivery oracle: part 1 (the image) fails with a permanent error. -/
def deliverW : Nat → Option GoErr :=
  fun k => if k = 1 then some (.plain (lstr "boom")) else none

/-- Delivery oracle: every part succeeds. -/
def deliverOk : Nat → Option GoErr := fun _ => none

/-- Sleep oracle: no cancellation. -/
def sleepOk : Nat → Option GoErr := fun _ => none

/-- Retry oracle: the first call fails with a retryable timeout, the second
succeeds. -/
def resW : Nat → Option GoErr :=
  fun k => if k = 0 then some (.plain (lstr "timeout")) else none

/-- Tick environment: `A1` sends and fails, `A2` sends and succeeds. -/
def envW : List Char → AccountEnv :=
  fun a =>
    if a = lstr "A1" then ⟨true, some 0, some (some (lstr "G1")), false⟩
    else ⟨true, some 0, some (some (lstr "G2")), true⟩

/-- Two enabled accounts. -/
def accsW : List AccountLite := [⟨lstr "A1", 100⟩, ⟨lstr "A2", 100⟩]

/-- A segment decomposition used as substitution witness:
`halo {group_name}, jam {time_now}!`. -/
def segsW : List Seg :=
  [.lit (lstr "halo "), .gname, .lit (lstr ", jam "), .tnow, .lit (lstr "!")]

/-- Auto-join environment: settings enabled with preview on, all protocol
calls succeeding. -/
def ajEnvW : AJEnv :=
  ⟨some ⟨true, 20, true, [], []⟩, .ok ⟨lstr "Promo Toko"⟩,
    .ok (lstr "120@g.us"), .ok ⟨lstr "Promo Toko"⟩, 1000000, 900000⟩

/-- Auto-join state: `A1` already joined invite code `XYZ1234567`. -/
def ajStW : AJState :=
  ⟨[⟨lstr "A1", some (lstr "120@g.us"), some (lstr "Promo Toko"),
      lstr "XYZ1234567", some (lstr "S"), some (lstr "C"), lstr "joined",
      none, 950000⟩], []⟩

/-- Every branch of `perAccountDSN` produces `A ++ accountID ++ B` for strings
`A`, `B` depending only on the base DSN. -/
theorem perAccountDSN_shape (base : List Char) :
    ∃ A B, ∀ id, perAccountDSN base id = A ++ id ++ B := by
  by_cases h0 : base = []
  · exact ⟨lstr "file:promote_wa_", lstr ".db?_foreign_keys=on",
      fun id => by simp [perAccountDSN, h0]⟩
  · set path := (splitQuery base).1 with hpath
    set q := (splitQuery base).2 with hq
    by_cases h1 : (lstr "file:").isPrefixOf path
    · set fn := path.drop 5 with hfn
      by_cases h2 : (lstr ".db").isSuffixOf (fn.map Char.toLower)
      · by_cases h3 : (lstr ".db").isSuffixOf fn
        · by_cases h4 : q ≠ []
          · exact ⟨lstr "file:" ++ (fn.take (fn.length - 3) ++ lstr "_wa_"),
              lstr ".db" ++ '?' :: q,
              fun id => by
                simp [perAccountDSN, h0, if_neg h0, ← hpath, ← hq, ← hfn,
                  h1, if_pos h1, h2, if_pos h2, h3, if_pos h3, h4, if_pos h4,
                  List.append_assoc]⟩
          · exact ⟨lstr "file:" ++ (fn.take (fn.length - 3) ++ lstr "_wa_"),
              lstr ".db",
              fun id => by
                simp [perAccountDSN, h0, if_neg h0, ← hpath, ← hq, ← hfn,
                  h1, if_pos h1, h2, if_pos h2, h3, if_pos h3, h4, if_neg h4,
                  List.append_assoc]⟩
        · by_cases h4 : q ≠ []
          · exact ⟨lstr "file:" ++ (fn ++ lstr "_wa_"), lstr ".db" ++ '?' :: q,
              fun id => by
                simp [perAccountDSN, h0, if_neg h0, ← hpath, ← hq, ← hfn,
                  h1, if_pos h1, h2, if_pos h2, h3, if_neg h3, h4, if_pos h4,
                  List.append_assoc]⟩
          · exact ⟨lstr "file:" ++ (fn ++ lstr "_wa_"), lstr ".db",
              fun id => by
                simp [perAccountDSN, h0, if_neg h0, ← hpath, ← hq, ← hfn,
                  h1, if_pos h1, h2, if_pos h2, h3, if_neg h3, h4, if_neg h4,
                  List.append_assoc]⟩
      · by_cases h4 : q ≠ []
        · exact ⟨lstr "file:" ++ (fn ++ lstr "_wa_"), lstr ".db" ++ '?' :: q,
            fun id => by
              simp [perAccountDSN, h0, if_neg h0, ← hpath, ← hq, ← hfn,
                h1, if_pos h1, h2, if_neg h2, h4, if_pos h4, List.append_assoc]⟩
        · exact ⟨lstr "file:" ++ (fn ++ lstr "_wa_"), lstr ".db",
            fun id => by
              simp [perAccountDSN, h0, if_neg h0, ← hpath, ← hq, ← hfn,
                h1, if_pos h1, h2, if_neg h2, h4, if_neg h4, List.append_assoc]⟩
    · by_cases h4 : q ≠ []
      · exact ⟨base ++ lstr "&acc=", [],
          fun id => by
            simp [perAccountDSN, h0, if_neg h0, ← hpath, ← hq,
              h1, if_neg h1, h4, if_pos h4, List.append_assoc, List.append_nil]⟩
      · exact ⟨base ++ lstr "?acc=", [],
          fun id => by
            simp [perAccountDSN, h0, if_neg h0, ← hpath, ← hq,
              h1, if_neg h1, h4, if_neg h4, List.append_assoc, List.append_nil]⟩

/-- C9: for any base storage DSN, two distinct account ids derive distinct
per-account credential container identifiers, so no two accounts can share
one credential container. -/
theorem perAccountDSN_injective (base id1 id2 : List Char) (h : id1 ≠ id2) :
    perAccountDSN base id1 ≠ perAccountDSN base id2 := by
  obtain ⟨A, B, hAB⟩ := perAccountDSN_shape base
  rw [hAB, hAB]
  intro heq
  rw [List.append_assoc, List.append_assoc] at heq
  exact h (List.append_cancel_right (List.append_cancel_left heq))

/-- Witness for `perAccountDSN_injective` at the repository's default DSN
`file:promote.db?_foreign_keys=on` and two concrete account ids. -/
theorem perAccountDSN_injective_witness :
    lstr "a1" ≠ lstr "a2" ∧
      perAccountDSN (lstr "file:promote.db?_foreign_keys=on") (lstr "a1") ≠
        perAccountDSN (lstr "file:promote.db?_foreign_keys=on") (lstr "a2") :=
  ⟨by decide, perAccountDSN_injective _ _ _ (by decide)⟩

/-! ## C4: retry budget and retryability classification -/

theorem withRetryAux_spec (res : Nat → Option GoErr) :
    ∀ fuel a, a + fuel + 1 = maxAttempts →
      a + 1 ≤ (withRetryAux res fuel a).1 ∧
      (withRetryAux res fuel a).1 ≤ maxAttempts ∧
      (withRetryAux res fuel a).2 = res ((withRetryAux res fuel a).1 - 1) ∧
      (∀ i, a ≤ i → i + 1 < (withRetryAux res fuel a).1 →
        ∃ e, res i = some e ∧ isRetryable e = true) ∧
      ((withRetryAux res fuel a).1 < maxAttempts →
        (withRetryAux res fuel a).2 = none ∨
          ∃ e, (withRetryAux res fuel a).2 = some e ∧ isRetryable e = false) := by
  intro fuel
  induction fuel with
  | zero =>
    intro a hf
    cases hres : res a with
    | none =>
      have hout : withRetryAux res 0 a = (a + 1, none) := by
        rw [withRetryAux]; simp [hres]
      rw [hout]
      refine ⟨le_refl _, by omega, by simp [hres], ?_, fun _ => Or.inl rfl⟩
      intro i hai hi
      simp only at hi
      omega
    | some e =>
      have hout : withRetryAux res 0 a = (a + 1, some e) := by
        rw [withRetryAux]; simp [hres]
      rw [hout]
      refine ⟨le_refl _, by omega, by simp [hres], ?_, ?_⟩
      · intro i hai hi
        simp only at hi
        omega
      · intro hlt
        simp only at hlt
        omega
  | succ n ih =>
    intro a hf
    cases hres : res a with
    | none =>
      have hout : withRetryAux res (n + 1) a = (a + 1, none) := by
        rw [withRetryAux]; simp [hres]
      rw [hout]
      refine ⟨le_refl _, by omega, by simp [hres], ?_, fun _ => Or.inl rfl⟩
      intro i hai hi
      simp only at hi
      omega
    | some e =>
      by_cases hretry : isRetryable e = false
      · have hout : withRetryAux res (n + 1) a = (a + 1, some e) := by
          rw [withRetryAux]; simp [hres, hretry]
        rw [hout]
        refine ⟨le_refl _, by omega, by simp [hres], ?_, ?_⟩
        · intro i hai hi
          simp only at hi
          omega
        · intro _
          exact Or.inr ⟨e, rfl, hretry⟩
      · have hout : withRetryAux res (n + 1) a = withRetryAux res n (a + 1) := by
          rw [withRetryAux]; simp [hres, hretry]
        rw [hout]
        obtain ⟨ih1, ih2, ih3, ih4, ih5⟩ := ih (a + 1) (by omega)
        refine ⟨by omega, ih2, ih3, ?_, ih5⟩
        intro i hai hi
        rcases eq_or_lt_of_le hai with rfl | hlt'
        · exact ⟨e, hres, by simpa using hretry⟩
        · exact ih4 i (by omega) hi

/-- C4 (amended): every retry-wrapped operation calls the wrapped function at
least once and at most `maxAttempts` (3) times; the returned value is the
outcome of the last call; every call that was followed by another one failed
with an error that `isRetryable` accepts; and when the wrapper stopped before
exhausting the budget, the last call either succeeded or failed with a
non-retryable error (which is returned immediately). -/
theorem withRetry_spec (res : Nat → Option GoErr) :
    1 ≤ (withRetry res).1 ∧ (withRetry res).1 ≤ maxAttempts ∧
    (withRetry res).2 = res ((withRetry res).1 - 1) ∧
    (∀ i, i + 1 < (withRetry res).1 → ∃ e, res i = some e ∧ isRetryable e = true) ∧
    ((withRetry res).1 < maxAttempts →
      (withRetry res).2 = none ∨
        ∃ e, (withRetry res).2 = some e ∧ isRetryable e = false) := by
  obtain ⟨h1, h2, h3, h4, h5⟩ :=
    withRetryAux_spec res (maxAttempts - 1) 0 (by simp [maxAttempts])
  exact ⟨h1, h2, h3, fun i hi => h4 i (Nat.zero_le i) hi, h5⟩

/-- Witness for `withRetry_spec`: an oracle whose first call fails with a
retryable timeout and whose second call succeeds makes exactly two calls, and
the theorem certifies the first call's error as retryable. -/
theorem withRetry_spec_witness :
    (withRetry resW).1 = 2 ∧ (∃ e, resW 0 = some e ∧ isRetryable e = true) :=
  ⟨by decide, (withRetry_spec resW).2.2.2.1 0 (by decide)⟩

/-- C4 (counterexample): the code classifies a typed HTTP status error by its
code alone, so an HTTP 404 whose message contains "timeout" (via the URL) is
not retried, although the claim's iff makes it retryable. -/
theorem isRetryable_counterexample :
    isRetryable (.httpStatus 404 (lstr "http://a/timeout")) = false ∧
    retryableClaim (.httpStatus 404 (lstr "http://a/timeout")) = true := by
  constructor
  · decide
  · decide

/-! ## C5: scheduler group eligibility -/

theorem groupEligible_iff (now ch rt : Nat) (aid : List Char) (g : GroupRow) :
    groupEligible now ch rt aid g = true ↔ eligibleSpec now ch rt aid g := by
  unfold groupEligible eligibleSpec
  cases h : g.lastSentAt <;> simp [h] <;> tauto

/-- C5: the Scheduler's per-account group pick returns only groups satisfying
the eligibility predicate — owned by the account, enabled, risk_score below
the threshold, and last_sent_at null or older than the cooldown — and returns
nothing exactly when no group in the table satisfies it. -/
theorem pickOneEligibleGroup_spec (tbl : List GroupRow) (now ch rt : Nat)
    (aid : List Char) :
    (∀ gid, pickOneEligibleGroup tbl now ch rt aid = some gid →
      ∃ g ∈ tbl, g.id = gid ∧ eligibleSpec now ch rt aid g) ∧
    (pickOneEligibleGroup tbl now ch rt aid = none ↔
      ∀ g ∈ tbl, ¬eligibleSpec now ch rt aid g) := by
  constructor
  · intro gid hpick
    unfold pickOneEligibleGroup at hpick
    cases hh : (tbl.filter (groupEligible now ch rt aid)).head? with
    | none => rw [hh] at hpick; simp at hpick
    | some g =>
      rw [hh] at hpick
      simp only [Option.map_some', Option.some.injEq] at hpick
      have hmem : g ∈ tbl.filter (groupEligible now ch rt aid) :=
        List.mem_of_mem_head? (by simp [hh])
      rw [List.mem_filter] at hmem
      exact ⟨g, hmem.1, hpick, (groupEligible_iff now ch rt aid g).mp hmem.2⟩
  · unfold pickOneEligibleGroup
    simp [List.head?_eq_none_iff, List.filter_eq_nil_iff, groupEligible_iff]

/-- Witness for `pickOneEligibleGroup_spec`: with one enabled, never-sent,
zero-risk group owned by `A1`, the pick returns it and the theorem certifies
its eligibility. -/
theorem pickOneEligibleGroup_spec_witness :
    pickOneEligibleGroup dbW.groups 1000000 48 3 (lstr "A1") = some (lstr "G1") ∧
      ∃ g ∈ dbW.groups, g.id = lstr "G1" ∧ eligibleSpec 1000000 48 3 (lstr "A1") g :=
  ⟨by decide,
    (pickOneEligibleGroup_spec dbW.groups 1000000 48 3 (lstr "A1")).1 _ (by decide)⟩

/-! ## C6: one send per tick -/

/-- C6 (counterexample): in a tick where account A1's send fails, the loop
continues and invokes the Sender for A2 as well — two Sender invocations for
two (account, group) pairs in one tick, refuting "once the tick has invoked
the Sender for one eligible pair, the tick performs no further send". -/
theorem processOneSend_two_invocations :
    processOneSend envW accsW =
      [⟨lstr "A1", lstr "G1", false⟩, ⟨lstr "A2", lstr "G2", true⟩] ∧
    ¬(processOneSend envW accsW).length ≤ 1 := by decide

/-- C6 (amended): every Sender invocation of a tick that is followed by a
further invocation was a failed one — after the first successful invocation
the tick ends — and hence at most one invocation per tick succeeds. -/
theorem processOneSend_at_most_one_success (env : List Char → AccountEnv)
    (accs : List AccountLite) :
    (∀ i j (hi : i < (processOneSend env accs).length)
        (_ : j < (processOneSend env accs).length), i < j →
        ((processOneSend env accs).get ⟨i, hi⟩).ok = false) ∧
    ((processOneSend env accs).filter (fun inv => inv.ok)).length ≤ 1 := by
  induction accs with
  | nil =>
    refine ⟨fun i j hi hj hij => absurd hi (by simp [processOneSend]), ?_⟩
    simp [processOneSend]
  | cons a rest ih =>
    obtain ⟨ih1, ih2⟩ := ih
    have hstep : processOneSend env (a :: rest) = processOneSend env rest ∨
        (∃ gid, processOneSend env (a :: rest) = [⟨a.id, gid, true⟩]) ∨
        (∃ gid, processOneSend env (a :: rest) =
          ⟨a.id, gid, false⟩ :: processOneSend env rest) := by
      have hunfold : processOneSend env (a :: rest) =
          (if (env a.id).connectOk = false then processOneSend env rest
           else
             match (env a.id).sentToday with
             | none => processOneSend env rest
             | some sent =>
               if (if a.dailyLimit ≤ 0 then (100 : Int) else a.dailyLimit) ≤ (sent : Int) then
                 processOneSend env rest
               else
                 match (env a.id).pickResult with
                 | none => processOneSend env rest
                 | some none => processOneSend env rest
                 | some (some gid) =>
                   if (env a.id).sendOk then [⟨a.id, gid, true⟩]
                   else ⟨a.id, gid, false⟩ :: processOneSend env rest) := rfl
      rw [hunfold]
      by_cases h1 : (env a.id).connectOk = false
      · left; simp [h1]
      · simp only [if_neg h1]
        cases h2 : (env a.id).sentToday with
        | none => left; rfl
        | some sent =>
          by_cases h3 : (if a.dailyLimit ≤ 0 then (100 : Int) else a.dailyLimit) ≤ (sent : Int)
          · left; simp [h3]
          · simp only [if_neg h3]
            cases h4 : (env a.id).pickResult with
            | none => left; rfl
            | some po =>
              cases po with
              | none => left; rfl
              | some gid =>
                by_cases h5 : (env a.id).sendOk
                · exact Or.inr (Or.inl ⟨gid, by simp [h5]⟩)
                · exact Or.inr (Or.inr ⟨gid, by simp [h5]⟩)
    rcases hstep with h | ⟨gid, h⟩ | ⟨gid, h⟩
    · rw [h]; exact ⟨ih1, ih2⟩
    · rw [h]
      refine ⟨?_, by simp⟩
      intro i j hi hj hij
      simp only [List.length_cons, List.length_nil] at hi hj
      omega
    · rw [h]
      refine ⟨?_, ?_⟩
      · intro i j hi hj hij
        cases i with
        | zero => rfl
        | succ i' =>
          cases j with
          | zero => omega
          | succ j' =>
            simp only [List.length_cons] at hi hj
            exact ih1 i' j' (by omega) (by omega) (by omega)
      · simpa using ih2

/-- Witness for `processOneSend_at_most_one_success` at the two-account tick:
the first invocation (followed by a second) is certified as failed, and the
success count of the whole tick is at most one. -/
theorem processOneSend_at_most_one_success_witness :
    ((processOneSend envW accsW).get ⟨0, by decide⟩).ok = false ∧
    ((processOneSend envW accsW).filter (fun inv => inv.ok)).length ≤ 1 :=
  ⟨(processOneSend_at_most_one_success envW accsW).1 0 1 (by decide) (by decide)
      (by decide),
    (processOneSend_at_most_one_success envW accsW).2⟩

/-! ## C1: last_sent_at after a fully successful send -/

theorem bumpRisk_id_lastSentAt (db : SendDB) (gid : List Char) :
    (bumpRiskAndMaybePause db gid).groups.map (fun g => (g.id, g.lastSentAt)) =
      db.groups.map (fun g => (g.id, g.lastSentAt)) := by
  unfold bumpRiskAndMaybePause
  simp only [List.map_map]
  apply List.map_congr_left
  intro g _
  simp only [Function.comp]
  split_ifs <;> rfl

theorem runParts_id_lastSentAt (acct gid sess : List Char)
    (deliver sleepErr : Nat → Option GoErr) :
    ∀ (l : List Part) (k : Nat) (db : SendDB) (tr : List Part),
      ((runParts acct gid sess deliver sleepErr l k db tr).db.groups).map
          (fun g => (g.id, g.lastSentAt)) =
        db.groups.map (fun g => (g.id, g.lastSentAt)) := by
  intro l
  induction l with
  | nil => intro k db tr; simp [runParts]
  | cons p rest ih =>
    intro k db tr
    cases hd : deliver k with
    | some e =>
      simp only [runParts, hd]
      exact bumpRisk_id_lastSentAt ⟨db.groups, _⟩ gid
    | none =>
      cases hs : sleepErr k with
      | some e => simp [runParts, hd, hs]
      | none =>
        simp only [runParts, hd, hs]
        exact ih (k + 1) _ (p :: tr)

/-- C1 (code divergence): no invocation of `SendToGroupWithSession` ever
modifies any group's `last_sent_at` — in particular an invocation in which
every part is delivered successfully and which returns nil leaves
`last_sent_at` unchanged instead of setting it to the completion time, so the
Scheduler's cooldown filter never sees an updated timestamp from the Sender.
The second conjunct evaluates the failing input: a fully successful
text+image send to `G1` (never sent to, `last_sent_at` NULL) returns nil and
leaves `last_sent_at` NULL. -/
theorem sendToGroupWithSession_never_sets_lastSentAt :
    (∀ pre pers deliver sleepErr acct gid sess c db,
      ((sendToGroupWithSession pre pers deliver sleepErr acct gid sess c
            db).db.groups).map (fun g => (g.id, g.lastSentAt)) =
        db.groups.map (fun g => (g.id, g.lastSentAt))) ∧
    ((sendToGroupWithSession none id deliverOk sleepOk (lstr "A1") (lstr "G1")
        (lstr "S1") contentW dbW).result = none ∧
      (sendToGroupWithSession none id deliverOk sleepOk (lstr "A1") (lstr "G1")
        (lstr "S1") contentW dbW).db.groups = dbW.groups) := by
  constructor
  · intro pre pers deliver sleepErr acct gid sess c db
    cases pre with
    | some e => simp [sendToGroupWithSession]
    | none =>
      simp only [sendToGroupWithSession]
      exact runParts_id_lastSentAt acct gid sess deliver sleepErr _ 0 db []
  · constructor
    · decide
    · decide

/-! ## C2: fixed part order -/

theorem runParts_trace_prefix (acct gid sess : List Char)
    (deliver sleepErr : Nat → Option GoErr) :
    ∀ (l : List Part) (k : Nat) (db : SendDB) (tr : List Part),
      ∃ t, (runParts acct gid sess deliver sleepErr l k db tr).trace =
          tr.reverse ++ t ∧ t <+: l := by
  intro l
  induction l with
  | nil =>
    intro k db tr
    exact ⟨[], by simp [runParts], List.nil_prefix⟩
  | cons p rest ih =>
    intro k db tr
    cases hd : deliver k with
    | some e =>
      refine ⟨[p], ?_, ?_⟩
      · simp [runParts, hd]
      · exact List.cons_prefix_cons.mpr ⟨rfl, List.nil_prefix⟩
    | none =>
      cases hs : sleepErr k with
      | some e =>
        refine ⟨[p], ?_, ?_⟩
        · simp [runParts, hd, hs]
        · exact List.cons_prefix_cons.mpr ⟨rfl, List.nil_prefix⟩
      | none =>
        obtain ⟨t, ht, hpre⟩ := ih (k + 1)
          ⟨db.groups, db.logs ++ [okRow acct gid sess p]⟩ (p :: tr)
        refine ⟨p :: t, ?_, List.cons_prefix_cons.mpr ⟨rfl, hpre⟩⟩
        simp only [runParts, hd, hs]
        rw [ht]
        simp

theorem runParts_result_none (acct gid sess : List Char)
    (deliver sleepErr : Nat → Option GoErr) :
    ∀ (l : List Part) (k : Nat) (db : SendDB) (tr : List Part),
      (runParts acct gid sess deliver sleepErr l k db tr).result = none →
      (runParts acct gid sess deliver sleepErr l k db tr).trace =
        tr.reverse ++ l := by
  intro l
  induction l with
  | nil => intro k db tr _; simp [runParts]
  | cons p rest ih =>
    intro k db tr hres
    cases hd : deliver k with
    | some e => simp [runParts, hd] at hres
    | none =>
      cases hs : sleepErr k with
      | some e => simp [runParts, hd, hs] at hres
      | none =>
        simp only [runParts, hd, hs] at hres ⊢
        rw [ih (k + 1) _ (p :: tr) hres]
        simp

theorem forall₂_exists_right {R : List Part → PartKind → Prop} :
    ∀ {bs : List (List Part)} {ks : List PartKind}, List.Forall₂ R bs ks →
      ∀ b ∈ bs, ∃ k ∈ ks, R b k := by
  intro bs ks h
  induction h with
  | nil => simp
  | cons hbk _ ih =>
    intro b hb
    rcases List.mem_cons.mp hb with rfl | hb'
    · exact ⟨_, List.mem_cons_self _ _, hbk⟩
    · obtain ⟨k, hk, hr⟩ := ih b hb'
      exact ⟨k, List.mem_cons_of_mem _ hk, hr⟩

theorem pairwise_rank_blocks {blocks : List (List Part)} {ks : List PartKind}
    (h : List.Forall₂ (fun b k => ∀ p ∈ b, p.kind = k) blocks ks)
    (hks : ks.Pairwise (fun k₁ k₂ => k₁.rank ≤ k₂.rank)) :
    blocks.flatten.Pairwise (fun p q => p.kind.rank ≤ q.kind.rank) := by
  induction h with
  | nil => simp
  | @cons b k bs ks' hbk htail ih =>
    rw [List.pairwise_cons] at hks
    rw [List.flatten_cons]
    apply List.pairwise_append.mpr
    refine ⟨?_, ih hks.2, ?_⟩
    · apply List.pairwise_of_forall_mem_list
      intro p hp q hq
      rw [hbk p hp, hbk q hq]
    · intro p hp q hq
      rw [List.mem_flatten] at hq
      obtain ⟨bj, hbj, hqbj⟩ := hq
      obtain ⟨kj, hkj, hrel⟩ := forall₂_exists_right htail bj hbj
      rw [hbk p hp, hrel q hqbj]
      exact hks.1 kj hkj

theorem partsOf_pairwise (pers : List Char → List Char) (c : MessageContent) :
    (partsOf pers c).Pairwise (fun p q => p.kind.rank ≤ q.kind.rank) := by
  have hflat : partsOf pers c =
      [(if trimSpace c.textOnly ≠ [] then
          [(⟨.text, pers c.textOnly, [], lstr "text-only:" ++ short c.textOnly,
            short (pers c.textOnly), 1, maxAttempts⟩ : Part)]
        else []),
        c.imageURLs.enum.map fun iu =>
          ⟨.image, iu.2, pers c.imageCaption,
            mediaPreview (lstr "image:") iu.2 (pers c.imageCaption),
            lstr "image:" ++ iu.2, iu.1 + 1, iu.1 + 1⟩,
        c.videoURLs.enum.map fun iu =>
          ⟨.video, iu.2, pers c.videoCaption,
            mediaPreview (lstr "video:") iu.2 (pers c.videoCaption),
            lstr "video:" ++ iu.2, iu.1 + 1, iu.1 + 1⟩,
        c.audioURLs.enum.map fun iu =>
          ⟨.audio, iu.2, [], lstr "audio:" ++ iu.2, lstr "audio:" ++ iu.2,
            iu.1 + 1, iu.1 + 1⟩,
        c.stickerURLs.enum.map fun iu =>
          ⟨.sticker, iu.2, [], lstr "sticker:" ++ iu.2, lstr "sticker:" ++ iu.2,
            iu.1 + 1, iu.1 + 1⟩,
        c.docURLs.enum.map fun iu =>
          ⟨.doc, iu.2, pers c.docCaption,
            mediaPreview (lstr "doc:") iu.2 (pers c.docCaption),
            lstr "doc:" ++ iu.2, iu.1 + 1, iu.1 + 1⟩].flatten := by
    simp [partsOf]
  rw [hflat]
  refine pairwise_rank_blocks ?_
    (show ([PartKind.text, PartKind.image, PartKind.video, PartKind.audio,
        PartKind.sticker, PartKind.doc]).Pairwise
        (fun k₁ k₂ => k₁.rank ≤ k₂.rank) from by decide)
  refine List.Forall₂.cons ?_ (List.Forall₂.cons ?_ (List.Forall₂.cons ?_
    (List.Forall₂.cons ?_ (List.Forall₂.cons ?_ (List.Forall₂.cons ?_
      List.Forall₂.nil)))))
  · intro p hp
    split at hp
    · rw [List.mem_singleton] at hp; rw [hp]
    · simp at hp
  all_goals
    intro p hp
    simp only [List.mem_map] at hp
    obtain ⟨iu, _, rfl⟩ := hp
    rfl

/-- C2: in every invocation of `SendToGroup(WithSession)` the sequence of
attempted parts is a prefix of the canonical sequence — the text_only part if
non-blank, then every image URL in list order, then videos, audios, stickers
and documents — it equals that sequence exactly when the invocation returns
nil, and its kinds never place a later kind before an earlier one. -/
theorem sendToGroup_part_order (pre : Option GoErr)
    (pers : List Char → List Char) (deliver sleepErr : Nat → Option GoErr)
    (acct gid sess : List Char) (c : MessageContent) (db : SendDB) :
    (sendToGroupWithSession pre pers deliver sleepErr acct gid sess c db).trace
        <+: partsOf pers c ∧
    ((sendToGroupWithSession pre pers deliver sleepErr acct gid sess c
        db).result = none →
      (sendToGroupWithSession pre pers deliver sleepErr acct gid sess c
        db).trace = partsOf pers c) ∧
    (sendToGroupWithSession pre pers deliver sleepErr acct gid sess c
        db).trace.Pairwise (fun p q => p.kind.rank ≤ q.kind.rank) := by
  cases pre with
  | some e =>
    refine ⟨?_, ?_, ?_⟩ <;> simp [sendToGroupWithSession]
  | none =>
    simp only [sendToGroupWithSession]
    obtain ⟨t, ht, hpre⟩ :=
      runParts_trace_prefix acct gid sess deliver sleepErr (partsOf pers c) 0 db []
    simp only [List.reverse_nil, List.nil_append] at ht
    refine ⟨?_, ?_, ?_⟩
    · rw [ht]; exact hpre
    · intro hres
      have := runParts_result_none acct gid sess deliver sleepErr
        (partsOf pers c) 0 db [] hres
      simpa using this
    · rw [ht]
      exact (partsOf_pairwise pers c).sublist hpre.sublist

/-- Witness for `sendToGroup_part_order`: the fully successful send of
`contentW` attempts exactly the canonical text-then-image sequence. -/
theorem sendToGroup_part_order_witness :
    (sendToGroupWithSession none id deliverOk sleepOk (lstr "A1") (lstr "G1")
        (lstr "S1") contentW dbW).result = none ∧
    (sendToGroupWithSession none id deliverOk sleepOk (lstr "A1") (lstr "G1")
        (lstr "S1") contentW dbW).trace = partsOf id contentW :=
  ⟨by decide,
    (sendToGroup_part_order none id deliverOk sleepOk (lstr "A1") (lstr "G1")
        (lstr "S1") contentW dbW).2.1 (by decide)⟩

/-! ## C3: final part failure handling -/

theorem bumpRisk_groups (db : SendDB) (gid : List Char) :
    (bumpRiskAndMaybePause db gid).groups =
      db.groups.map fun g =>
        if g.id = gid then
          { g with riskScore := g.riskScore + 1,
                   enabled := g.enabled && !decide (riskThreshold ≤ g.riskScore + 1) }
        else g := by
  unfold bumpRiskAndMaybePause
  simp only [List.map_map]
  apply List.map_congr_left
  intro g _
  cases g with
  | mk id acc name en last risk =>
    simp only [Function.comp]
    by_cases h1 : id = gid
    · by_cases h2 : riskThreshold ≤ risk + 1
      · simp [h1, h2]
      · simp [h1, h2]
    · simp [h1]

theorem runParts_fail_at (acct gid sess : List Char)
    (deliver sleepErr : Nat → Option GoErr) (e : GoErr) :
    ∀ (j : Nat) (l : List Part) (k : Nat) (db : SendDB) (tr : List Part)
      (p : Part) (rest : List Part),
      (∀ i, i < j → deliver (k + i) = none ∧ sleepErr (k + i) = none) →
      deliver (k + j) = some e →
      l.drop j = p :: rest →
      runParts acct gid sess deliver sleepErr l k db tr =
        ⟨bumpRiskAndMaybePause
            ⟨db.groups, db.logs ++ (l.take j).map (okRow acct gid sess) ++
              [failRow acct gid sess p e]⟩ gid,
          tr.reverse ++ l.take (j + 1), some e⟩ := by
  intro j
  induction j with
  | zero =>
    intro l k db tr p rest hpre hfail hdrop
    rw [List.drop_zero] at hdrop
    subst hdrop
    rw [Nat.add_zero] at hfail
    simp [runParts, hfail]
  | succ n ihj =>
    intro l k db tr p rest hpre hfail hdrop
    cases l with
    | nil => simp at hdrop
    | cons q rest' =>
      have h0 := hpre 0 (by omega)
      rw [Nat.add_zero] at h0
      simp only [runParts, h0.1, h0.2]
      rw [List.drop_succ_cons] at hdrop
      rw [ihj rest' (k + 1) ⟨db.groups, db.logs ++ [okRow acct gid sess q]⟩
        (q :: tr) p rest ?_ ?_ hdrop]
      · simp [List.take_succ_cons, List.append_assoc]
      · intro i hi
        have := hpre (i + 1) (by omega)
        rwa [show k + (i + 1) = k + 1 + i by omega] at this
      · rwa [show k + 1 + n = k + (n + 1) by omega]

/-- C3: when part `j` of an invocation finally fails (all earlier parts
succeeded), the invocation logs the `sent` rows of the earlier parts plus
exactly one `failed` row for part `j`, increments the group's risk_score by
one, clears `enabled` exactly when the incremented risk_score reaches the
risk threshold (3), returns that error, and attempts no further part. -/
theorem sendToGroup_failure_handling (pers : List Char → List Char)
    (deliver sleepErr : Nat → Option GoErr) (acct gid sess : List Char)
    (c : MessageContent) (db : SendDB) (j : Nat) (e : GoErr) (p : Part)
    (rest : List Part)
    (hpre : ∀ i, i < j → deliver i = none ∧ sleepErr i = none)
    (hfail : deliver j = some e)
    (hdrop : (partsOf pers c).drop j = p :: rest) :
    (sendToGroupWithSession none pers deliver sleepErr acct gid sess c
        db).result = some e ∧
    (sendToGroupWithSession none pers deliver sleepErr acct gid sess c
        db).trace = (partsOf pers c).take (j + 1) ∧
    (sendToGroupWithSession none pers deliver sleepErr acct gid sess c
        db).db.logs =
      db.logs ++ ((partsOf pers c).take j).map (okRow acct gid sess) ++
        [failRow acct gid sess p e] ∧
    ((sendToGroupWithSession none pers deliver sleepErr acct gid sess c
          db).db.logs.filter (fun r => r.status = lstr "failed")).length =
      (db.logs.filter (fun r => r.status = lstr "failed")).length + 1 ∧
    (sendToGroupWithSession none pers deliver sleepErr acct gid sess c
        db).db.groups =
      db.groups.map (fun g =>
        if g.id = gid then
          { g with riskScore := g.riskScore + 1,
                   enabled := g.enabled && !decide (riskThreshold ≤ g.riskScore + 1) }
        else g) := by
  have hlogs : ∀ (d : SendDB) (g : List Char),
      (bumpRiskAndMaybePause d g).logs = d.logs := fun _ _ => rfl
  have hrun := runParts_fail_at acct gid sess deliver sleepErr e j
    (partsOf pers c) 0 db [] p rest (by simpa using hpre) (by simpa using hfail)
    hdrop
  refine ⟨?_, ?_, ?_, ?_, ?_⟩
  · simp [sendToGroupWithSession, hrun]
  · simp [sendToGroupWithSession, hrun]
  · simp [sendToGroupWithSession, hrun, hlogs]
  · simp only [sendToGroupWithSession, hrun, hlogs]
    simp only [List.filter_append, List.length_append]
    have hsent : (((partsOf pers c).take j).map (okRow acct gid sess)).filter
        (fun r => r.status = lstr "failed") = [] := by
      rw [List.filter_eq_nil_iff]
      intro r hr
      simp only [List.mem_map] at hr
      obtain ⟨q, _, rfl⟩ := hr
      show ¬decide ((lstr "sent" : List Char) = lstr "failed") = true
      decide
    rw [hsent]
    have hfailone : ([failRow acct gid sess p e].filter
        (fun r => r.status = lstr "failed")) = [failRow acct gid sess p e] := by
      simp [failRow, logRow]
    rw [hfailone]
    simp
  · simp only [sendToGroupWithSession, hrun]
    rw [bumpRisk_groups]

/-- Witness for `sendToGroup_failure_handling`: the image part (index 1) of
`contentW` fails permanently; the invocation returns the error, stops after
the image part, appends one `sent` and one `failed` row, and bumps `G1`'s
risk score. -/
theorem sendToGroup_failure_handling_witness :
    (sendToGroupWithSession none id deliverW sleepOk (lstr "A1") (lstr "G1")
        (lstr "S1") contentW dbW).result = some (.plain (lstr "boom")) ∧
    (sendToGroupWithSession none id deliverW sleepOk (lstr "A1") (lstr "G1")
        (lstr "S1") contentW dbW).trace = (partsOf id contentW).take 2 ∧
    (sendToGroupWithSession none id deliverW sleepOk (lstr "A1") (lstr "G1")
        (lstr "S1") contentW dbW).db.logs =
      dbW.logs ++ ((partsOf id contentW).take 1).map
          (okRow (lstr "A1") (lstr "G1") (lstr "S1")) ++
        [failRow (lstr "A1") (lstr "G1") (lstr "S1")
          ((partsOf id contentW).get ⟨1, by decide⟩) (.plain (lstr "boom"))] ∧
    ((sendToGroupWithSession none id deliverW sleepOk (lstr "A1") (lstr "G1")
          (lstr "S1") contentW dbW).db.logs.filter
        (fun r => r.status = lstr "failed")).length =
      (dbW.logs.filter (fun r => r.status = lstr "failed")).length + 1 ∧
    (sendToGroupWithSession none id deliverW sleepOk (lstr "A1") (lstr "G1")
        (lstr "S1") contentW dbW).db.groups =
      dbW.groups.map (fun g =>
        if g.id = lstr "G1" then
          { g with riskScore := g.riskScore + 1,
                   enabled := g.enabled && !decide (riskThreshold ≤ g.riskScore + 1) }
        else g) :=
  sendToGroup_failure_handling id deliverW sleepOk (lstr "A1") (lstr "G1")
    (lstr "S1") contentW dbW 1 (.plain (lstr "boom"))
    ((partsOf id contentW).get ⟨1, by decide⟩) []
    (fun i hi => by interval_cases i; exact ⟨rfl, rfl⟩)
    (by decide) (by decide)

/-! ## C7: placeholder substitution -/

theorem replaceTwoAux_fuel (g t : List Char) :
    ∀ (f₁ : Nat) (l : List Char) (f₂ : Nat), l.length ≤ f₁ → l.length ≤ f₂ →
      replaceTwoAux g t f₁ l = replaceTwoAux g t f₂ l := by
  intro f₁
  induction f₁ with
  | zero =>
    intro l f₂ h1 h2
    have hl : l = [] := List.eq_nil_of_length_eq_zero (by omega)
    subst hl
    cases f₂ <;> rfl
  | succ n ih =>
    intro l f₂ h1 h2
    cases l with
    | nil => cases f₂ <;> rfl
    | cons c cs =>
      cases f₂ with
      | zero => simp at h2
      | succ m =>
        simp only [replaceTwoAux]
        by_cases hg : patGroupName.isPrefixOf (c :: cs) = true
        · rw [if_pos hg, if_pos hg]
          congr 1
          apply ih
          · simp only [List.length_drop, List.length_cons] at *
            have : patGroupName.length = 12 := by decide
            omega
          · simp only [List.length_drop, List.length_cons] at *
            have : patGroupName.length = 12 := by decide
            omega
        · rw [if_neg hg, if_neg hg]
          by_cases ht : patTimeNow.isPrefixOf (c :: cs) = true
          · rw [if_pos ht, if_pos ht]
            congr 1
            apply ih
            · simp only [List.length_drop, List.length_cons] at *
              have : patTimeNow.length = 10 := by decide
              omega
            · simp only [List.length_drop, List.length_cons] at *
              have : patTimeNow.length = 10 := by decide
              omega
          · rw [if_neg ht, if_neg ht]
            congr 1
            apply ih
            · simp only [List.length_cons] at h1; omega
            · simp only [List.length_cons] at h2; omega

theorem replaceTwo_gname_head (g t rest : List Char) :
    replaceTwo g t (patGroupName ++ rest) = g ++ replaceTwo g t rest := by
  have hpf : patGroupName.isPrefixOf (patGroupName ++ rest) = true := by
    rw [List.isPrefixOf_iff_prefix]
    exact List.prefix_append _ _
  have hcons : patGroupName ++ rest =
      '{' :: (lstr "group_name\x7d" ++ rest) := rfl
  unfold replaceTwo
  rw [hcons]
  have hlen : ('{' :: (lstr "group_name\x7d" ++ rest)).length = rest.length + 12 := by
    simp [lstr]
  rw [hlen]
  show replaceTwoAux g t (rest.length + 11 + 1) ('{' :: (lstr "group_name\x7d" ++ rest)) =
    g ++ replaceTwoAux g t rest.length rest
  rw [replaceTwoAux]
  rw [if_pos (by rw [← hcons]; exact hpf)]
  congr 1
  have hdrop : ('{' :: (lstr "group_name\x7d" ++ rest)).drop patGroupName.length = rest := by
    rw [← hcons]
    have : patGroupName.length = patGroupName.length := rfl
    exact List.drop_left patGroupName rest
  rw [hdrop]
  exact replaceTwoAux_fuel g t (rest.length + 11) rest rest.length (by omega) le_rfl

theorem replaceTwo_tnow_head (g t rest : List Char) :
    replaceTwo g t (patTimeNow ++ rest) = t ++ replaceTwo g t rest := by
  have hng : patGroupName.isPrefixOf (patTimeNow ++ rest) = false := by
    by_contra hb
    have hb' : patGroupName.isPrefixOf (patTimeNow ++ rest) = true := by
      revert hb; cases patGroupName.isPrefixOf (patTimeNow ++ rest) <;> simp
    rw [List.isPrefixOf_iff_prefix] at hb'
    obtain ⟨u, hu⟩ := hb'
    have h2 : ('{' :: ('g' :: (lstr "roup_name\x7d" ++ u))) =
        '{' :: ('t' :: (lstr "ime_now\x7d" ++ rest)) := hu
    simp at h2
  have hpf : patTimeNow.isPrefixOf (patTimeNow ++ rest) = true := by
    rw [List.isPrefixOf_iff_prefix]
    exact List.prefix_append _ _
  have hcons : patTimeNow ++ rest = '{' :: (lstr "time_now\x7d" ++ rest) := rfl
  unfold replaceTwo
  rw [hcons]
  have hlen : ('{' :: (lstr "time_now\x7d" ++ rest)).length = rest.length + 10 := by
    simp [lstr]
  rw [hlen]
  show replaceTwoAux g t (rest.length + 9 + 1) ('{' :: (lstr "time_now\x7d" ++ rest)) =
    t ++ replaceTwoAux g t rest.length rest
  rw [replaceTwoAux]
  rw [if_neg (by rw [← hcons]; simp [hng]), if_pos (by rw [← hcons]; exact hpf)]
  congr 1
  have hdrop : ('{' :: (lstr "time_now\x7d" ++ rest)).drop patTimeNow.length = rest := by
    rw [← hcons]
    exact List.drop_left patTimeNow rest
  rw [hdrop]
  exact replaceTwoAux_fuel g t (rest.length + 9) rest rest.length (by omega) le_rfl

theorem replaceTwo_cons_ne (g t : List Char) (c : Char) (cs : List Char)
    (hc : c ≠ '{') :
    replaceTwo g t (c :: cs) = c :: replaceTwo g t cs := by
  have hng : patGroupName.isPrefixOf (c :: cs) = false := by
    by_contra hb
    have hb' : patGroupName.isPrefixOf (c :: cs) = true := by
      revert hb; cases patGroupName.isPrefixOf (c :: cs) <;> simp
    rw [List.isPrefixOf_iff_prefix] at hb'
    obtain ⟨u, hu⟩ := hb'
    have h2 : ('{' :: (lstr "group_name\x7d" ++ u)) = c :: cs := hu
    exact hc (by injection h2 with h _; exact h.symm)
  have hnt : patTimeNow.isPrefixOf (c :: cs) = false := by
    by_contra hb
    have hb' : patTimeNow.isPrefixOf (c :: cs) = true := by
      revert hb; cases patTimeNow.isPrefixOf (c :: cs) <;> simp
    rw [List.isPrefixOf_iff_prefix] at hb'
    obtain ⟨u, hu⟩ := hb'
    have h2 : ('{' :: (lstr "time_now\x7d" ++ u)) = c :: cs := hu
    exact hc (by injection h2 with h _; exact h.symm)
  unfold replaceTwo
  show replaceTwoAux g t (cs.length + 1) (c :: cs) = c :: replaceTwoAux g t cs.length cs
  rw [replaceTwoAux]
  rw [if_neg (by simp [hng]), if_neg (by simp [hnt])]

theorem replaceTwo_lit (g t : List Char) :
    ∀ (s rest : List Char), '{' ∉ s →
      replaceTwo g t (s ++ rest) = s ++ replaceTwo g t rest := by
  intro s
  induction s with
  | nil => intro rest _; simp
  | cons c cs ih =>
    intro rest hnot
    have hc : c ≠ '{' := fun h => hnot (h ▸ List.mem_cons_self c cs)
    have hcs : '{' ∉ cs := fun h => hnot (List.mem_cons_of_mem c h)
    rw [List.cons_append, replaceTwo_cons_ne g t c (cs ++ rest) hc, ih rest hcs]
    rfl

theorem renderTemplate_cons (s : Seg) (rest : List Seg) :
    renderTemplate (s :: rest) = renderSeg s ++ renderTemplate rest := by
  simp [renderTemplate]

theorem substTemplate_cons (g t : List Char) (s : Seg) (rest : List Seg) :
    substTemplate g t (s :: rest) = substSeg g t s ++ substTemplate g t rest := by
  simp [substTemplate]

theorem replaceTwo_template (g t : List Char) :
    ∀ segs : List Seg, litFree segs = true →
      replaceTwo g t (renderTemplate segs) = substTemplate g t segs := by
  intro segs
  induction segs with
  | nil => intro _; rfl
  | cons s rest ih =>
    intro hfree
    cases s with
    | lit str =>
      have hf : str.contains '{' = false ∧ litFree rest = true := by
        revert hfree
        simp [litFree, Bool.and_eq_true]
      have hnot : '{' ∉ str := by
        intro hmem
        have hcontains : str.contains '{' = true := List.elem_eq_true_of_mem hmem
        rw [hcontains] at hf
        exact absurd hf.1 (by decide)
      rw [renderTemplate_cons, substTemplate_cons]
      show replaceTwo g t (str ++ renderTemplate rest) = str ++ substTemplate g t rest
      rw [replaceTwo_lit g t str _ hnot, ih hf.2]
    | gname =>
      have hf : litFree rest = true := by
        revert hfree; simp [litFree]
      rw [renderTemplate_cons, substTemplate_cons]
      show replaceTwo g t (patGroupName ++ renderTemplate rest) =
        g ++ substTemplate g t rest
      rw [replaceTwo_gname_head, ih hf]
    | tnow =>
      have hf : litFree rest = true := by
        revert hfree; simp [litFree]
      rw [renderTemplate_cons, substTemplate_cons]
      show replaceTwo g t (patTimeNow ++ renderTemplate rest) =
        t ++ substTemplate g t rest
      rw [replaceTwo_tnow_head, ih hf]

theorem substTemplate_of_render_nil (g t : List Char) :
    ∀ segs : List Seg, renderTemplate segs = [] → substTemplate g t segs = [] := by
  intro segs
  induction segs with
  | nil => intro _; rfl
  | cons s rest ih =>
    intro h
    rw [renderTemplate_cons] at h
    rw [List.append_eq_nil] at h
    cases s with
    | lit str =>
      rw [substTemplate_cons]
      have h1 : str = [] := h.1
      rw [List.append_eq_nil]
      exact ⟨h1, ih h.2⟩
    | gname => exact absurd h.1 (by decide)
    | tnow => exact absurd h.1 (by decide)

/-- C7 (counterexample): with the tz database unavailable and the server zone
UTC at minute 0, the code renders `{time_now}` as "00:00" (the server's
system zone), while the claim's fixed +07:00 fallback requires "07:00". -/
theorem personalize_tz_fallback_counterexample :
    personalize false 0 0 (lstr "{time_now}") (lstr "Toko") = lstr "00:00" ∧
    personalizeClaimed 0 (lstr "{time_now}") (lstr "Toko") = lstr "07:00" ∧
    personalize false 0 0 (lstr "{time_now}") (lstr "Toko") ≠
      personalizeClaimed 0 (lstr "{time_now}") (lstr "Toko") := by
  refine ⟨?_, ?_, ?_⟩ <;> decide

/-- C7 (amended): for any text (given by its segment decomposition with
brace-free literals), `personalize` replaces every `{group_name}` occurrence
with the group name, every `{time_now}` occurrence with the wall clock
formatted HH:MM — in Asia/Jakarta when the tz database loads, otherwise in
the server's system zone — and changes nothing else. -/
theorem personalize_spec (tzOk : Bool) (sysOff : Int) (utcMin : Nat)
    (gname : List Char) (segs : List Seg) (hfree : litFree segs = true) :
    personalize tzOk sysOff utcMin (renderTemplate segs) gname =
      substTemplate gname
        (formatHHMM ((((utcMin : Int) +
          (if tzOk then jakartaOffsetMin else sysOff)).emod 1440).toNat)) segs := by
  unfold personalize
  by_cases h0 : renderTemplate segs = []
  · rw [if_pos h0, h0]
    exact (substTemplate_of_render_nil _ _ segs h0).symm
  · rw [if_neg h0]
    exact replaceTwo_template _ _ segs hfree

/-- Witness for `personalize_spec` on `halo {group_name}, jam {time_now}!`
with the tz database available at 07:30 Jakarta time. -/
theorem personalize_spec_witness :
    litFree segsW = true ∧
    personalize true 0 30 (renderTemplate segsW) (lstr "Toko") =
      substTemplate (lstr "Toko")
        (formatHHMM (((((30 : Nat) : Int) +
          (if (true : Bool) then jakartaOffsetMin else 0)).emod 1440).toNat))
        segsW :=
  ⟨by decide, personalize_spec true 0 30 (lstr "Toko") segsW (by decide)⟩

/-! ## C8: auto-join at-most-once and duplicate handling -/

theorem joinedCount_append (logs : List AJLogRow) (r : AJLogRow) (a c : List Char) :
    joinedCount (logs ++ [r]) a c =
      joinedCount logs a c +
        (if r.accountId = a ∧ r.inviteCode = c ∧ r.status = lstr "joined" then 1
         else 0) := by
  unfold joinedCount
  rw [List.filter_append, List.length_append]
  by_cases h1 : r.accountId = a <;> by_cases h2 : r.inviteCode = c <;>
    by_cases h3 : r.status = lstr "joined" <;> simp [h1, h2, h3]

theorem joinedCount_logAttempt_ne (st : AJState) (now : Nat)
    (a gid gname code sb si status reason a' c' : List Char)
    (hstatus : status ≠ lstr "joined") :
    joinedCount (logAttempt st now a gid gname code sb si status reason).logs a' c' =
      joinedCount st.logs a' c' := by
  unfold logAttempt
  rw [joinedCount_append]
  simp [hstatus]

theorem joinedCount_eq_zero_of_not_already (logs : List AJLogRow) (a c : List Char)
    (h : isAlreadyJoined logs a c = false) : joinedCount logs a c = 0 := by
  rw [joinedCount, List.length_eq_zero, List.filter_eq_nil_iff]
  intro r hr
  rw [isAlreadyJoined, List.any_eq_false] at h
  exact fun hb => h r hr hb

theorem processAfterPreview_at_most_once (env : AJEnv) (st : AJState)
    (a code sb si : List Char) (settings : AJSettings) (jt : Nat)
    (gn : List Char) (calls : List ProtoCall) (a' c' : List Char)
    (h : joinedCount st.logs a' c' ≤ 1) :
    joinedCount (processAfterPreview env st a code sb si settings jt gn
        calls).state.logs a' c' ≤ 1 := by
  unfold processAfterPreview
  by_cases hsj : (shouldJoin settings sb gn jt).1 = false
  · rw [if_pos hsj]
    rw [joinedCount_logAttempt_ne _ _ _ _ _ _ _ _ _ _ _ _ (by decide)]
    exact h
  · rw [if_neg hsj]
    by_cases hrl : checkRateLimit st env.now a = false
    · rw [if_pos hrl]
      rw [joinedCount_logAttempt_ne _ _ _ _ _ _ _ _ _ _ _ _ (by decide)]
      exact h
    · rw [if_neg hrl]
      by_cases haj : isAlreadyJoined st.logs a code = true
      · rw [if_pos haj]
        rw [joinedCount_logAttempt_ne _ _ _ _ _ _ _ _ _ _ _ _ (by decide)]
        exact h
      · rw [if_neg haj]
        have haj' : isAlreadyJoined st.logs a code = false := by
          revert haj; cases isAlreadyJoined st.logs a code <;> simp
        cases hj : env.joinResult with
        | err e =>
          simp only [logAttempt]
          rw [joinedCount_append]
          rw [if_neg (by
            rintro ⟨-, -, hs⟩
            exact absurd hs (by
              show ¬((lstr "failed" : List Char) = lstr "joined")
              decide))]
          omega
        | ok jid =>
          simp only [logAttempt]
          rw [joinedCount_append]
          by_cases hmatch : a = a' ∧ code = c'
          · rw [if_pos (show _ ∧ _ ∧ _ from ⟨hmatch.1, hmatch.2, rfl⟩)]
            have h0 : joinedCount st.logs a' c' = 0 := by
              rw [← hmatch.1, ← hmatch.2]
              exact joinedCount_eq_zero_of_not_already st.logs a code haj'
            omega
          · rw [if_neg (fun hcon => hmatch ⟨hcon.1, hcon.2.1⟩)]
            omega

/-- C8 (amended): (1) every `ProcessInviteCode` run preserves
"at most one `joined` row per (account, invite_code)" — a duplicate code is
never joined again; (2) when a code that already has a joined row passes the
earlier gates (valid, settings enabled with preview on, preview succeeds,
filter passes, rate-limit interval elapsed), the run appends exactly one row
with status `skipped` and reason `already_joined`, and the only protocol call
it makes is the preview (no join call). -/
theorem autojoin_at_most_once :
    (∀ env st a icode sb si a' c', joinedCount st.logs a' c' ≤ 1 →
      joinedCount (processInviteCode env st a icode sb si).state.logs a' c' ≤ 1) ∧
    (∀ env st a icode sb si gn s,
      env.settingsRow = some s → s.enabled = true → s.previewBeforeJoin = true →
      env.previewResult = Res.ok ⟨gn⟩ →
      validateInviteCode (normalizeInviteCode icode) = true →
      (shouldJoin s sb gn (countJoinsToday st.logs a env.dayStart)).1 = true →
      checkRateLimit st env.now a = true →
      isAlreadyJoined st.logs a (normalizeInviteCode icode) = true →
      (processInviteCode env st a icode sb si).state.logs =
        st.logs ++ [⟨a, none, nullStr gn, normalizeInviteCode icode, nullStr sb,
          nullStr si, lstr "skipped", some (lstr "already_joined"), env.now⟩] ∧
      (processInviteCode env st a icode sb si).calls =
        [ProtoCall.previewCall (normalizeInviteCode icode)]) := by
  constructor
  · intro env st a icode sb si a' c' h
    unfold processInviteCode
    by_cases hval : validateInviteCode (normalizeInviteCode icode) = false
    · rw [if_pos hval]
      rw [joinedCount_logAttempt_ne _ _ _ _ _ _ _ _ _ _ _ _ (by decide)]
      exact h
    · rw [if_neg hval]
      by_cases hen : (env.settingsRow.getD defaultAJSettings).enabled = false
      · rw [if_pos hen]
        rw [joinedCount_logAttempt_ne _ _ _ _ _ _ _ _ _ _ _ _ (by decide)]
        exact h
      · rw [if_neg hen]
        by_cases hprev : (env.settingsRow.getD defaultAJSettings).previewBeforeJoin
        · rw [if_pos hprev]
          cases hr : env.previewResult with
          | err e =>
            simp only
            rw [joinedCount_logAttempt_ne _ _ _ _ _ _ _ _ _ _ _ _ (by decide)]
            exact h
          | ok info =>
            simp only
            exact processAfterPreview_at_most_once env st a _ sb si _ _ _ _ a' c' h
        · rw [if_neg hprev]
          exact processAfterPreview_at_most_once env st a _ sb si _ _ _ _ a' c' h
  · intro env st a icode sb si gn s hset hen hprev hpr hval hsj hrl haj
    have hstep : processInviteCode env st a icode sb si =
        processAfterPreview env st a (normalizeInviteCode icode) sb si s
          (countJoinsToday st.logs a env.dayStart) gn
          [.previewCall (normalizeInviteCode icode)] := by
      unfold processInviteCode
      rw [if_neg (by rw [hval]; decide)]
      rw [hset]
      simp only [Option.getD_some]
      rw [if_neg (by rw [hen]; decide), if_pos hprev, hpr]
    have hafter : processAfterPreview env st a (normalizeInviteCode icode) sb si s
        (countJoinsToday st.logs a env.dayStart) gn
        [.previewCall (normalizeInviteCode icode)] =
        ⟨logAttempt st env.now a [] gn (normalizeInviteCode icode) sb si
            (lstr "skipped") (lstr "already_joined"),
          [.previewCall (normalizeInviteCode icode)]⟩ := by
      unfold processAfterPreview
      rw [if_neg (by rw [hsj]; decide), if_neg (by rw [hrl]; decide), if_pos haj]
    rw [hstep, hafter]
    refine ⟨?_, rfl⟩
    simp only [logAttempt]
    rw [show nullStr (lstr "already_joined") = some (lstr "already_joined") from
          by decide,
        show nullStr ([] : List Char) = none from rfl]

/-- Witness for `autojoin_at_most_once`: a run on the duplicate invite code
`XYZ1234567` preserves the at-most-once invariant and makes exactly the
preview protocol call. -/
theorem autojoin_at_most_once_witness :
    joinedCount (processInviteCode ajEnvW ajStW (lstr "A1") (lstr "XYZ1234567")
        (lstr "S") (lstr "C")).state.logs (lstr "A1") (lstr "XYZ1234567") ≤ 1 ∧
    (processInviteCode ajEnvW ajStW (lstr "A1") (lstr "XYZ1234567") (lstr "S")
        (lstr "C")).calls = [ProtoCall.previewCall (lstr "XYZ1234567")] :=
  ⟨autojoin_at_most_once.1 ajEnvW ajStW (lstr "A1") (lstr "XYZ1234567")
      (lstr "S") (lstr "C") (lstr "A1") (lstr "XYZ1234567") (by decide),
    (autojoin_at_most_once.2 ajEnvW ajStW (lstr "A1") (lstr "XYZ1234567")
      (lstr "S") (lstr "C") (lstr "Promo Toko") ⟨true, 20, true, [], []⟩ rfl rfl
      rfl rfl (by decide) (by decide) (by decide) (by decide)).2⟩

/-- C8 (counterexample): processing a duplicate invite code with
preview_before_join enabled (the default) performs a preview protocol call
for that code before the duplicate check — refuting "no protocol call is
made for that code" — although the audit row is the claimed
skipped/already_joined row. -/
theorem autojoin_duplicate_makes_protocol_call :
    (processInviteCode ajEnvW ajStW (lstr "A1") (lstr "XYZ1234567") (lstr "S")
        (lstr "C")).calls = [ProtoCall.previewCall (lstr "XYZ1234567")] ∧
    ¬(processInviteCode ajEnvW ajStW (lstr "A1") (lstr "XYZ1234567") (lstr "S")
        (lstr "C")).calls = [] ∧
    (processInviteCode ajEnvW ajStW (lstr "A1") (lstr "XYZ1234567") (lstr "S")
        (lstr "C")).state.logs =
      ajStW.logs ++ [⟨lstr "A1", none, some (lstr "Promo Toko"),
        lstr "XYZ1234567", some (lstr "S"), some (lstr "C"), lstr "skipped",
        some (lstr "already_joined"), 1000000⟩] := by
  refine ⟨?_, ?_, ?_⟩ <;> decide

/-! ## C10: group upsert frame properties -/

theorem upsertGroup_preserves (tbl : List GroupRow) (a gid name : List Char)
    (g : GroupRow) (hg : g ∈ tbl) :
    ∃ g', g' ∈ upsertGroup tbl a gid name ∧ g'.id = g.id ∧
      g'.enabled = g.enabled ∧ g'.lastSentAt = g.lastSentAt ∧
      g'.riskScore = g.riskScore ∧
      (name = [] ∨ ¬g.id = gid → g'.name = g.name) := by
  unfold upsertGroup
  by_cases hex : (tbl.any fun x => decide (x.id = gid)) = true
  · rw [if_pos hex]
    refine ⟨if g.id = gid then
        { g with accountId := a, name := if name ≠ [] then name else g.name }
      else g, List.mem_map_of_mem _ hg, ?_⟩
    by_cases h1 : g.id = gid
    · rw [if_pos h1]
      refine ⟨rfl, rfl, rfl, rfl, ?_⟩
      rintro (hname | hne)
      · simp [hname]
      · exact absurd h1 hne
    · rw [if_neg h1]
      exact ⟨rfl, rfl, rfl, rfl, fun _ => rfl⟩
  · rw [if_neg hex]
    exact ⟨g, List.mem_append_left _ hg, rfl, rfl, rfl, rfl, fun _ => rfl⟩

theorem syncGroups_preserves (a : List Char) :
    ∀ (fetched : List (List Char × List Char)) (tbl : List GroupRow)
      (g : GroupRow), g ∈ tbl →
      ∃ g', g' ∈ syncGroups tbl a fetched ∧ g'.id = g.id ∧
        g'.enabled = g.enabled ∧ g'.lastSentAt = g.lastSentAt ∧
        g'.riskScore = g.riskScore ∧
        ((∀ p ∈ fetched, p.1 = g.id → p.2 = []) → g'.name = g.name) := by
  intro fetched
  induction fetched with
  | nil =>
    intro tbl g hg
    exact ⟨g, hg, rfl, rfl, rfl, rfl, fun _ => rfl⟩
  | cons pr rest ih =>
    intro tbl g hg
    have hf : syncGroups tbl a (pr :: rest) =
        syncGroups (if pr.1 = [] then tbl else upsertGroup tbl a pr.1 pr.2) a
          rest := by
      unfold syncGroups
      rw [List.foldl_cons]
    rw [hf]
    by_cases hskip : pr.1 = []
    · rw [if_pos hskip]
      obtain ⟨g', hmem, h1, h2, h3, h4, h5⟩ := ih tbl g hg
      exact ⟨g', hmem, h1, h2, h3, h4,
        fun hall => h5 fun p hp => hall p (List.mem_cons_of_mem _ hp)⟩
    · rw [if_neg hskip]
      obtain ⟨g1, hmem1, i1, i2, i3, i4, i5⟩ :=
        upsertGroup_preserves tbl a pr.1 pr.2 g hg
      obtain ⟨g', hmem, h1, h2, h3, h4, h5⟩ := ih _ g1 hmem1
      refine ⟨g', hmem, h1.trans i1, h2.trans i2, h3.trans i3, h4.trans i4, ?_⟩
      intro hall
      have hname1 : g1.name = g.name := by
        by_cases hid : pr.1 = g.id
        · exact i5 (Or.inl (hall pr (List.mem_cons_self _ _) hid))
        · exact i5 (Or.inr fun h => hid (by rw [h]))
      have hrest : ∀ p ∈ rest, p.1 = g1.id → p.2 = [] := by
        intro p hp hpid
        exact hall p (List.mem_cons_of_mem _ hp) (by rw [← i1]; exact hpid)
      exact (h5 hrest).trans hname1

/-- C10: an upsert of an existing `groups` row — also one owned by a
different account — never deletes the row and leaves enabled, last_sent_at
and risk_score unchanged, and leaves name unchanged when the incoming name is
empty; the same holds across the whole upsert loop of `FetchAndSyncGroups`. -/
theorem upsertGroup_frame :
    (∀ tbl a gid name g, g ∈ tbl →
      ∃ g', g' ∈ upsertGroup tbl a gid name ∧ g'.id = g.id ∧
        g'.enabled = g.enabled ∧ g'.lastSentAt = g.lastSentAt ∧
        g'.riskScore = g.riskScore ∧ (name = [] → g'.name = g.name)) ∧
    (∀ tbl a fetched g, g ∈ tbl →
      ∃ g', g' ∈ syncGroups tbl a fetched ∧ g'.id = g.id ∧
        g'.enabled = g.enabled ∧ g'.lastSentAt = g.lastSentAt ∧
        g'.riskScore = g.riskScore ∧
        ((∀ p ∈ fetched, p.1 = g.id → p.2 = []) → g'.name = g.name)) := by
  constructor
  · intro tbl a gid name g hg
    obtain ⟨g', hmem, h1, h2, h3, h4, h5⟩ :=
      upsertGroup_preserves tbl a gid name g hg
    exact ⟨g', hmem, h1, h2, h3, h4, fun hname => h5 (Or.inl hname)⟩
  · intro tbl a fetched g hg
    exact syncGroups_preserves a fetched tbl g hg

/-- Witness for `upsertGroup_frame`: `G1` (owned by `A1`) is upserted by a
call carrying account `A2` and an empty name, one-shot and through the sync
loop; the row survives with enabled, last_sent_at, risk_score and name
unchanged. -/
theorem upsertGroup_frame_witness :
    (⟨lstr "G1", lstr "A1", lstr "Toko", true, none, 0⟩ : GroupRow) ∈ dbW.groups ∧
    (∃ g', g' ∈ upsertGroup dbW.groups (lstr "A2") (lstr "G1") [] ∧
      g'.id = lstr "G1" ∧ g'.enabled = true ∧ g'.lastSentAt = none ∧
      g'.riskScore = 0 ∧ (([] : List Char) = [] → g'.name = lstr "Toko")) ∧
    (∃ g', g' ∈ syncGroups dbW.groups (lstr "A2") [(lstr "G1", [])] ∧
      g'.id = lstr "G1" ∧ g'.enabled = true ∧ g'.lastSentAt = none ∧
      g'.riskScore = 0 ∧
      ((∀ p ∈ [((lstr "G1" : List Char), ([] : List Char))],
          p.1 = lstr "G1" → p.2 = []) → g'.name = lstr "Toko")) :=
  ⟨by decide,
    upsertGroup_frame.1 dbW.groups (lstr "A2") (lstr "G1") []
      ⟨lstr "G1", lstr "A1", lstr "Toko", true, none, 0⟩ (by decide),
    upsertGroup_frame.2 dbW.groups (lstr "A2") [(lstr "G1", [])]
      ⟨lstr "G1", lstr "A1", lstr "Toko", true, none, 0⟩ (by decide)⟩

end Promote
